import Mathlib

/-!
Shallow embedding of `simplelru/lru_accounting.go` (QuarkChain/golang-lru),
the weighted-accounting LRU cache `LRUWithAccounting`.

Modelling choices:
- The Go struct holds `limit int`, `size int`, a doubly linked `evictList`
  (front = most recently used, back = least recently used) and a map
  `items` from key to list element.  Because the map and the list always
  hold the same keys in bijection, the state is modelled as the list of
  (key, value) entries alone, ordered from the least recently used entry
  (the Go list back) at the head to the most recently used entry (the Go
  list front) at the end, together with the `limit` and `size` fields.
  Go `int` becomes `Int`.
- The accounting callback `onAccount` is a parameter `w : K → V → Int`.
- The eviction callback `onEvict` is modelled by having every mutating
  operation also return the list of (key, value) pairs passed to
  `onEvict`, in call order.  (`Purge` ranges over the Go map, whose
  iteration order is unspecified; its calls are modelled in list order.)
- The `for c.size > c.limit` loop in `evictIfNeeded` calls
  `removeOldest`, which is a no-op on an empty list, so the Go loop
  spins forever when the list is empty while `size > limit`.  The
  embedding `evictLoop` returns `none` exactly in that diverging case,
  and `some` with the final state otherwise.
-/

set_option linter.unusedSectionVars false

namespace Simplelru

/-- Cache state: `limit` and `size` fields of the Go struct, plus the
recency list ordered least recently used first (Go list back) to most
recently used last (Go list front). -/
structure LRUWithAccounting (K V : Type) where
  limit : Int
  size : Int
  evictList : List (K × V)
  deriving Repr, DecidableEq

variable {K V : Type} [DecidableEq K] [DecidableEq V]

/-- Sum of the accounting weights of the entries of a list. -/
def sumWeights (w : K → V → Int) (l : List (K × V)) : Int :=
  (l.map (fun e => w e.1 e.2)).sum

/-- Keys of the cache, ordered oldest first, as returned by Go `Keys()`. -/
def Keys (c : LRUWithAccounting K V) : List K :=
  c.evictList.map Prod.fst

/-- Go `Len()`: number of entries. -/
def Len (c : LRUWithAccounting K V) : Nat :=
  c.evictList.length

/-- Go `AccountingSize()`: the `size` field. -/
def AccountingSize (c : LRUWithAccounting K V) : Int :=
  c.size

/-- Go `NewLRUWithAccounting`: fails unless the limit is positive. -/
def NewLRUWithAccounting (limit : Int) :
    Except String (LRUWithAccounting K V) :=
  if limit ≤ 0 then .error "must provide a positive size"
  else .ok { limit := limit, size := 0, evictList := [] }

/-- The map lookup `c.items[key]`: the unique entry of the list whose key
is `k` (the Go map and list are kept in bijection). -/
def findEntry (c : LRUWithAccounting K V) (k : K) : Option (K × V) :=
  c.evictList.find? (fun e => e.1 == k)

/-- Go `evictIfNeeded` loop body state transformer: while `size > limit`,
remove the back (head, here) entry, subtracting its weight and logging the
`onEvict` call; `none` models the diverging run where the list is empty
while `size > limit` still holds (`removeOldest` is then a no-op and the
Go loop never exits). Returns the final list, final size and evict log. -/
def evictLoop (w : K → V → Int) :
    List (K × V) → Int → Int → Option (List (K × V) × Int × List (K × V))
  | l, s, lim =>
    if s ≤ lim then
      some (l, s, [])
    else
      match l with
      | [] => none
      | e :: rest =>
        match evictLoop w rest (s - w e.1 e.2) lim with
        | none => none
        | some (l', s', log) => some (l', s', e :: log)

/-- Go `evictIfNeeded`: records whether `size > limit` held on entry (the
returned `evicted` flag), then runs the eviction loop. -/
def evictIfNeeded (w : K → V → Int) (c : LRUWithAccounting K V) :
    Option (LRUWithAccounting K V × Bool × List (K × V)) :=
  (evictLoop w c.evictList c.size c.limit).map
    (fun r => ({ limit := c.limit, size := r.2.1, evictList := r.1 },
               c.limit < c.size, r.2.2))

/-- The insertion or update step of Go `Add`, before `evictIfNeeded`:
on a hit, the element is moved to the front, the old weight is subtracted,
the value replaced in place, and the new weight added; on a miss, a new
entry is pushed at the front and its weight added. -/
def addPlace (w : K → V → Int) (c : LRUWithAccounting K V) (k : K) (v : V) :
    LRUWithAccounting K V :=
  match c.evictList.find? (fun e => e.1 == k) with
  | some e =>
      { c with
        evictList := c.evictList.eraseP (fun e => e.1 == k) ++ [(e.1, v)],
        size := c.size - w e.1 e.2 + w e.1 v }
  | none =>
      { c with
        evictList := c.evictList ++ [(k, v)],
        size := c.size + w k v }

/-- Go `Add`: place or update the entry, then run `evictIfNeeded`.
Returns the new state, the `evicted` flag, and the `onEvict` log. -/
def Add (w : K → V → Int) (c : LRUWithAccounting K V) (k : K) (v : V) :
    Option (LRUWithAccounting K V × Bool × List (K × V)) :=
  evictIfNeeded w (addPlace w c k v)

/-- Go `Get`: on a hit, moves the entry to the front and returns its
value; on a miss, returns not-found and leaves the state alone. -/
def Get (c : LRUWithAccounting K V) (k : K) :
    LRUWithAccounting K V × Option V :=
  match c.evictList.find? (fun e => e.1 == k) with
  | some e =>
      ({ c with evictList := c.evictList.eraseP (fun x => x.1 == k) ++ [e] },
       some e.2)
  | none => (c, none)

/-- Go `Contains`: map membership; no mutation, so the state is returned
unchanged. -/
def Contains (c : LRUWithAccounting K V) (k : K) :
    LRUWithAccounting K V × Bool :=
  (c, (c.evictList.find? (fun e => e.1 == k)).isSome)

/-- Go `Peek`: value lookup without recency refresh; no mutation, so the
state is returned unchanged. -/
def Peek (c : LRUWithAccounting K V) (k : K) :
    LRUWithAccounting K V × Option V :=
  (c, (c.evictList.find? (fun e => e.1 == k)).map (fun e => e.2))

/-- Go `removeElement` applied to the entry found for key `k` (used by
`Remove`): the element is unlinked, the key deleted, `onEvict` fired, and
the weight subtracted. -/
def Remove (w : K → V → Int) (c : LRUWithAccounting K V) (k : K) :
    LRUWithAccounting K V × Bool × List (K × V) :=
  match c.evictList.find? (fun e => e.1 == k) with
  | some e =>
      ({ c with
         evictList := c.evictList.eraseP (fun x => x.1 == k),
         size := c.size - w e.1 e.2 },
       true, [e])
  | none => (c, false, [])

/-- Go `RemoveOldest`: removes the back entry if any, firing `onEvict`
and updating accounting, and returns it. -/
def RemoveOldest (w : K → V → Int) (c : LRUWithAccounting K V) :
    LRUWithAccounting K V × Option (K × V) × List (K × V) :=
  match c.evictList with
  | [] => (c, none, [])
  | e :: rest =>
      ({ c with evictList := rest, size := c.size - w e.1 e.2 },
       some e, [e])

/-- Go `GetOldest`: returns the back entry without removing it. -/
def GetOldest (c : LRUWithAccounting K V) : Option (K × V) :=
  c.evictList.head?

/-- One unconditional pass of Go `removeOldest` (private helper used by
the eviction loops): removes the back entry when present, else no-op. -/
def removeOldestStep (w : K → V → Int) (c : LRUWithAccounting K V) :
    LRUWithAccounting K V × List (K × V) :=
  match c.evictList with
  | [] => (c, [])
  | e :: rest =>
      ({ c with evictList := rest, size := c.size - w e.1 e.2 }, [e])

/-- The bounded loop inside Go `Resize`: `removeOldest` run `n` times,
accumulating the `onEvict` log. -/
def resizeLoop (w : K → V → Int) (c : LRUWithAccounting K V) :
    Nat → LRUWithAccounting K V × List (K × V)
  | 0 => (c, [])
  | n + 1 =>
      let r := removeOldestStep w c
      let r' := resizeLoop w r.1 n
      (r'.1, r.2 ++ r'.2)

/-- Go `Resize`: computes `diff = Len() - size` clamped at zero, removes
the oldest entry `diff` times, then sets the limit, returning `diff`. -/
def Resize (w : K → V → Int) (c : LRUWithAccounting K V) (newLimit : Int) :
    LRUWithAccounting K V × Int × List (K × V) :=
  let diff0 : Int := (c.evictList.length : Int) - newLimit
  let diff : Int := if diff0 < 0 then 0 else diff0
  let r := resizeLoop w c diff.toNat
  ({ r.1 with limit := newLimit }, diff, r.2)

/-- Go `Purge`: fires `onEvict` for every present entry (map iteration
order is unspecified; modelled in list order), clears the list, and
resets the size to zero. -/
def Purge (c : LRUWithAccounting K V) :
    LRUWithAccounting K V × List (K × V) :=
  ({ limit := c.limit, size := 0, evictList := [] }, c.evictList)

/-- Well-formedness maintained by the Go code: the map keys and list
entries are in bijection (so list keys are pairwise distinct), and the
`size` field is the sum of the weights of the present entries. -/
def WF (w : K → V → Int) (c : LRUWithAccounting K V) : Prop :=
  (c.evictList.map Prod.fst).Nodup ∧ c.size = sumWeights w c.evictList

/-! Basic lemmas about weights, lookup and erasure. -/

theorem sumWeights_nil (w : K → V → Int) : sumWeights w ([] : List (K × V)) = 0 := rfl

theorem sumWeights_cons (w : K → V → Int) (a : K × V) (t : List (K × V)) :
    sumWeights w (a :: t) = w a.1 a.2 + sumWeights w t := by
  simp [sumWeights]

theorem sumWeights_append (w : K → V → Int) (l₁ l₂ : List (K × V)) :
    sumWeights w (l₁ ++ l₂) = sumWeights w l₁ + sumWeights w l₂ := by
  simp [sumWeights]

theorem find?_key_eq {l : List (K × V)} {k : K} {e : K × V}
    (h : l.find? (fun x => x.1 == k) = some e) : e.1 = k := by
  simpa using List.find?_some h

theorem sumWeights_eraseP {w : K → V → Int} {l : List (K × V)} {k : K} {e : K × V}
    (h : l.find? (fun x => x.1 == k) = some e) :
    sumWeights w (l.eraseP (fun x => x.1 == k)) = sumWeights w l - w e.1 e.2 := by
  induction l with
  | nil => simp at h
  | cons a t ih =>
    cases ha : (a.1 == k) with
    | true =>
      rw [List.find?_cons, ha] at h
      cases h
      rw [List.eraseP_cons, ha, cond_true, sumWeights_cons]
      ring
    | false =>
      rw [List.find?_cons, ha] at h
      rw [List.eraseP_cons, ha, cond_false, sumWeights_cons, sumWeights_cons, ih h]
      ring

theorem length_eraseP_find? {l : List (K × V)} {k : K} {e : K × V}
    (h : l.find? (fun x => x.1 == k) = some e) :
    (l.eraseP (fun x => x.1 == k)).length + 1 = l.length := by
  induction l with
  | nil => simp at h
  | cons a t ih =>
    cases ha : (a.1 == k) with
    | true =>
      rw [List.eraseP_cons, ha, cond_true]
      simp
    | false =>
      rw [List.find?_cons, ha] at h
      rw [List.eraseP_cons, ha, cond_false]
      simp only [List.length_cons]
      have := ih h
      omega

theorem not_mem_keys_eraseP {l : List (K × V)} (hnd : (l.map Prod.fst).Nodup) (k : K) :
    k ∉ (l.eraseP (fun x => x.1 == k)).map Prod.fst := by
  induction l with
  | nil => simp
  | cons a t ih =>
    simp only [List.map_cons, List.nodup_cons] at hnd
    cases ha : (a.1 == k) with
    | true =>
      rw [List.eraseP_cons, ha, cond_true]
      have hak : a.1 = k := by simpa using ha
      subst hak
      exact hnd.1
    | false =>
      rw [List.eraseP_cons, ha, cond_false]
      simp only [List.map_cons, List.mem_cons]
      rintro (h | h)
      · have : a.1 ≠ k := by simpa using ha
        exact this h.symm
      · exact ih hnd.2 h

theorem mem_eraseP_of_key_ne {l : List (K × V)} {x : K × V} {k : K}
    (hx : x ∈ l) (hne : x.1 ≠ k) : x ∈ l.eraseP (fun e => e.1 == k) := by
  induction l with
  | nil => simp at hx
  | cons a t ih =>
    cases ha : (a.1 == k) with
    | true =>
      rw [List.eraseP_cons, ha, cond_true]
      rcases List.mem_cons.mp hx with h | h
      · have hak : a.1 = k := by simpa using ha
        cases h
        exact absurd hak hne
      · exact h
    | false =>
      rw [List.eraseP_cons, ha, cond_false]
      rcases List.mem_cons.mp hx with h | h
      · exact h ▸ List.mem_cons_self a _
      · exact List.mem_cons_of_mem a (ih h)

theorem nodup_keys_eraseP {l : List (K × V)} (hnd : (l.map Prod.fst).Nodup)
    (p : K × V → Bool) : ((l.eraseP p).map Prod.fst).Nodup :=
  hnd.sublist ((List.eraseP_sublist l).map Prod.fst)

/-! Lemmas about the eviction loop. -/

theorem evictLoop_of_le {w : K → V → Int} {l : List (K × V)} {s lim : Int}
    (h : s ≤ lim) : evictLoop w l s lim = some (l, s, []) := by
  rw [evictLoop.eq_def]
  simp [h]

theorem evictLoop_nil_of_gt {w : K → V → Int} {s lim : Int} (h : lim < s) :
    evictLoop w ([] : List (K × V)) s lim = none := by
  rw [evictLoop.eq_def]
  simp [show ¬ s ≤ lim by omega]

theorem evictLoop_cons_of_gt {w : K → V → Int} {e : K × V} {rest : List (K × V)}
    {s lim : Int} (h : lim < s) :
    evictLoop w (e :: rest) s lim =
      (evictLoop w rest (s - w e.1 e.2) lim).map
        (fun r => (r.1, r.2.1, e :: r.2.2)) := by
  rw [evictLoop.eq_def]
  simp only [show ¬ s ≤ lim by omega, if_false]
  cases evictLoop w rest (s - w e.1 e.2) lim with
  | none => rfl
  | some r => rfl

/-- Characterisation of a terminating run of the eviction loop: it removes
exactly the first `n` entries (oldest first), logging them in order,
subtracting their weights; the final size is within the limit, and before
each removal the size still exceeded the limit. -/
theorem evictLoop_spec {w : K → V → Int} :
    ∀ (l : List (K × V)) (s lim : Int) (out : List (K × V) × Int × List (K × V)),
      evictLoop w l s lim = some out →
      ∃ n, n ≤ l.length ∧
        out.1 = l.drop n ∧
        out.2.2 = l.take n ∧
        out.2.1 = s - sumWeights w (l.take n) ∧
        out.2.1 ≤ lim ∧
        ∀ j, j < n → lim < s - sumWeights w (l.take j) := by
  intro l
  induction l with
  | nil =>
    intro s lim out h
    by_cases hs : s ≤ lim
    · rw [evictLoop_of_le hs] at h
      cases h
      exact ⟨0, by simp [sumWeights_nil, hs]⟩
    · rw [evictLoop_nil_of_gt (by omega)] at h
      cases h
  | cons e rest ih =>
    intro s lim out h
    by_cases hs : s ≤ lim
    · rw [evictLoop_of_le hs] at h
      cases h
      exact ⟨0, by simp [sumWeights_nil, hs]⟩
    · rw [evictLoop_cons_of_gt (by omega)] at h
      cases hr : evictLoop w rest (s - w e.1 e.2) lim with
      | none => rw [hr] at h; cases h
      | some r =>
        rw [hr] at h
        cases h
        obtain ⟨n, hn, h1, h2, h3, h4, h5⟩ := ih (s - w e.1 e.2) lim r hr
        refine ⟨n + 1, by simp only [List.length_cons]; omega, ?_, ?_, ?_, h4, ?_⟩
        · simpa using h1
        · simpa using h2
        · simp only [List.take_succ_cons, sumWeights_cons]
          rw [h3]; ring
        · intro j hj
          match j with
          | 0 =>
            simp only [List.take_zero, sumWeights_nil]
            omega
          | j + 1 =>
            have := h5 j (by omega)
            simp only [List.take_succ_cons, sumWeights_cons]
            omega

/-- Termination of the eviction loop: when the size field equals the sum
of the weights of the entries and the limit is nonnegative, the loop
always terminates. -/
theorem evictLoop_total {w : K → V → Int} :
    ∀ (l : List (K × V)) (s lim : Int),
      s = sumWeights w l → 0 ≤ lim → (evictLoop w l s lim).isSome := by
  intro l
  induction l with
  | nil =>
    intro s lim hs hlim
    rw [evictLoop_of_le (by simp [hs, sumWeights_nil]; omega)]
    rfl
  | cons e rest ih =>
    intro s lim hs hlim
    by_cases h : s ≤ lim
    · rw [evictLoop_of_le h]; rfl
    · rw [evictLoop_cons_of_gt (by omega)]
      have := ih (s - w e.1 e.2) lim (by rw [hs, sumWeights_cons]; ring) hlim
      cases hr : evictLoop w rest (s - w e.1 e.2) lim with
      | none => rw [hr] at this; simp at this
      | some r => rfl

theorem sumWeights_take_drop (w : K → V → Int) (l : List (K × V)) (n : Nat) :
    sumWeights w (l.take n) + sumWeights w (l.drop n) = sumWeights w l := by
  rw [← sumWeights_append, List.take_append_drop]

/-! Lemmas about the insertion step of Add. -/

theorem addPlace_hit {w : K → V → Int} {c : LRUWithAccounting K V} {k : K} {v : V}
    {e : K × V} (h : c.evictList.find? (fun x => x.1 == k) = some e) :
    addPlace w c k v =
      { c with
        evictList := c.evictList.eraseP (fun x => x.1 == k) ++ [(e.1, v)],
        size := c.size - w e.1 e.2 + w e.1 v } := by
  unfold addPlace
  rw [h]

theorem addPlace_miss {w : K → V → Int} {c : LRUWithAccounting K V} {k : K} {v : V}
    (h : c.evictList.find? (fun x => x.1 == k) = none) :
    addPlace w c k v =
      { c with evictList := c.evictList ++ [(k, v)], size := c.size + w k v } := by
  unfold addPlace
  rw [h]

theorem addPlace_limit {w : K → V → Int} {c : LRUWithAccounting K V} {k : K} {v : V} :
    (addPlace w c k v).limit = c.limit := by
  unfold addPlace
  cases c.evictList.find? (fun e => e.1 == k) <;> rfl

theorem addPlace_ne_nil {w : K → V → Int} {c : LRUWithAccounting K V} {k : K} {v : V} :
    (addPlace w c k v).evictList ≠ [] := by
  unfold addPlace
  cases c.evictList.find? (fun e => e.1 == k) <;> simp

theorem addPlace_wf {w : K → V → Int} {c : LRUWithAccounting K V} {k : K} {v : V}
    (hwf : WF w c) : WF w (addPlace w c k v) := by
  obtain ⟨hnd, hsum⟩ := hwf
  cases hfind : c.evictList.find? (fun x => x.1 == k) with
  | some e =>
    rw [addPlace_hit hfind]
    constructor
    · simp only [List.map_append, List.map_cons, List.map_nil]
      have hmid : (List.map Prod.fst (c.evictList.eraseP (fun x => x.1 == k))
          ++ [(e.1, v).1]) =
          List.map Prod.fst (c.evictList.eraseP (fun x => x.1 == k))
          ++ (e.1, v).1 :: [] := rfl
      rw [hmid, List.nodup_middle]
      refine List.nodup_cons.mpr ⟨?_, by simpa using nodup_keys_eraseP hnd _⟩
      have hk := find?_key_eq hfind
      simp only [List.append_nil]
      rw [hk]
      exact not_mem_keys_eraseP hnd k
    · simp only [sumWeights_append, sumWeights_cons, sumWeights_nil]
      rw [sumWeights_eraseP hfind, ← hsum]
      ring
  | none =>
    rw [addPlace_miss hfind]
    constructor
    · simp only [List.map_append, List.map_cons, List.map_nil]
      have hmid : (List.map Prod.fst c.evictList ++ [k]) =
          List.map Prod.fst c.evictList ++ k :: [] := rfl
      rw [hmid, List.nodup_middle]
      refine List.nodup_cons.mpr ⟨?_, by simpa using hnd⟩
      simp only [List.append_nil, List.mem_map]
      rintro ⟨x, hx, hxk⟩
      have := List.find?_eq_none.mp hfind x hx
      simp [hxk] at this
    · simp only [sumWeights_append, sumWeights_cons, sumWeights_nil]
      rw [← hsum]
      ring

/-! Lemmas about evictIfNeeded at the cache level. -/

theorem evictIfNeeded_spec {w : K → V → Int} {c : LRUWithAccounting K V}
    {out : LRUWithAccounting K V × Bool × List (K × V)}
    (h : evictIfNeeded w c = some out) :
    ∃ n, n ≤ c.evictList.length ∧
      out.1.limit = c.limit ∧
      out.1.evictList = c.evictList.drop n ∧
      out.2.2 = c.evictList.take n ∧
      out.1.size = c.size - sumWeights w (c.evictList.take n) ∧
      out.1.size ≤ c.limit ∧
      (out.2.1 = true ↔ c.limit < c.size) ∧
      ∀ j, j < n → c.limit < c.size - sumWeights w (c.evictList.take j) := by
  unfold evictIfNeeded at h
  cases hl : evictLoop w c.evictList c.size c.limit with
  | none => rw [hl] at h; cases h
  | some r =>
    rw [hl] at h
    cases h
    obtain ⟨n, hn, h1, h2, h3, h4, h5⟩ := evictLoop_spec c.evictList c.size c.limit r hl
    exact ⟨n, hn, rfl, h1, h2, h3, h4, by simp, h5⟩

theorem evictIfNeeded_total {w : K → V → Int} {c : LRUWithAccounting K V}
    (hwf : WF w c) (hlim : 0 ≤ c.limit) : (evictIfNeeded w c).isSome := by
  unfold evictIfNeeded
  have := evictLoop_total c.evictList c.size c.limit hwf.2 hlim
  cases h : evictLoop w c.evictList c.size c.limit with
  | none => rw [h] at this; simp at this
  | some r => rfl

theorem Add_total {w : K → V → Int} {c : LRUWithAccounting K V} {k : K} {v : V}
    (hwf : WF w c) (hlim : 0 ≤ c.limit) : (Add w c k v).isSome := by
  unfold Add
  apply evictIfNeeded_total (addPlace_wf hwf)
  rw [addPlace_limit]
  exact hlim

/-! Lemmas about the Resize loop. -/

theorem resizeLoop_spec (w : K → V → Int) :
    ∀ (n : Nat) (c : LRUWithAccounting K V),
      (resizeLoop w c n).1.limit = c.limit ∧
      (resizeLoop w c n).1.evictList = c.evictList.drop n ∧
      (resizeLoop w c n).1.size = c.size - sumWeights w (c.evictList.take n) ∧
      (resizeLoop w c n).2 = c.evictList.take n := by
  intro n
  induction n with
  | zero =>
    intro c
    simp [resizeLoop, sumWeights_nil]
  | succ n ih =>
    intro c
    cases hl : c.evictList with
    | nil =>
      have h0 : removeOldestStep w c = (c, []) := by
        unfold removeOldestStep
        rw [hl]
      simp only [resizeLoop, h0]
      obtain ⟨i1, i2, i3, i4⟩ := ih c
      exact ⟨i1, by simp [i2, hl], by simp [i3, hl, sumWeights_nil],
        by simp [i4, hl]⟩
    | cons e rest =>
      have h0 : removeOldestStep w c =
          ({ c with evictList := rest, size := c.size - w e.1 e.2 }, [e]) := by
        unfold removeOldestStep
        rw [hl]
      simp only [resizeLoop, h0]
      obtain ⟨i1, i2, i3, i4⟩ :=
        ih { c with evictList := rest, size := c.size - w e.1 e.2 }
      refine ⟨i1, ?_, ?_, ?_⟩
      · simp [i2, hl]
      · rw [i3]
        simp only [hl, List.take_succ_cons, sumWeights_cons]
        ring
      · simp [i4, hl]

theorem Resize_spec (w : K → V → Int) (c : LRUWithAccounting K V) (newLimit : Int) :
    (Resize w c newLimit).1.limit = newLimit ∧
    (Resize w c newLimit).2.1 = max ((c.evictList.length : Int) - newLimit) 0 ∧
    (Resize w c newLimit).1.evictList =
      c.evictList.drop (((c.evictList.length : Int) - newLimit).toNat) ∧
    (Resize w c newLimit).2.2 =
      c.evictList.take (((c.evictList.length : Int) - newLimit).toNat) ∧
    (Resize w c newLimit).1.size =
      c.size -
        sumWeights w
          (c.evictList.take (((c.evictList.length : Int) - newLimit).toNat)) := by
  by_cases h : ((c.evictList.length : Int) - newLimit) < 0
  · have h0 : ((c.evictList.length : Int) - newLimit).toNat = 0 := by omega
    simp only [Resize, h, if_true, Int.toNat_zero, h0]
    refine ⟨trivial, (max_eq_right (le_of_lt h)).symm, ?_, ?_, ?_⟩
    · simp [resizeLoop]
    · simp [resizeLoop]
    · simp [resizeLoop, sumWeights_nil]
  · obtain ⟨r1, r2, r3, r4⟩ :=
      resizeLoop_spec w (((c.evictList.length : Int) - newLimit).toNat) c
    simp only [Resize, h, if_false]
    exact ⟨trivial, (max_eq_left (not_lt.mp h)).symm, r2, r4, r3⟩

/-! The eviction-callback bookkeeping property used by claim C6: the log
of onEvict calls of one operation names each departed entry exactly once,
with the pair it held in the cache, and never names a key that is still
present afterwards. -/

def EvictLogOK (L : List (K × V)) (after : LRUWithAccounting K V)
    (log : List (K × V)) : Prop :=
  (log.map Prod.fst).Nodup ∧
  (∀ p, p ∈ log → p ∈ L ∧ p.1 ∉ Keys after) ∧
  (∀ e, e ∈ L → e.1 ∉ Keys after → e ∈ log)

theorem take_keys_not_mem_drop {l : List (K × V)}
    (hnd : (l.map Prod.fst).Nodup) (n : Nat) :
    ∀ p ∈ l.take n, p.1 ∉ (l.drop n).map Prod.fst := by
  have h : ((l.take n).map Prod.fst ++ (l.drop n).map Prod.fst).Nodup := by
    rw [← List.map_append, List.take_append_drop]
    exact hnd
  intro p hp
  exact List.disjoint_of_nodup_append h (List.mem_map_of_mem Prod.fst hp)

theorem evictLogOK_take_drop {L : List (K × V)}
    (hnd : (L.map Prod.fst).Nodup)
    {after : LRUWithAccounting K V} {log : List (K × V)} (n : Nat)
    (hafter : after.evictList = L.drop n) (hlog : log = L.take n) :
    EvictLogOK L after log := by
  subst hlog
  refine ⟨hnd.sublist ((List.take_sublist n L).map Prod.fst), ?_, ?_⟩
  · intro p hp
    refine ⟨(List.take_sublist n L).subset hp, ?_⟩
    rw [Keys, hafter]
    exact take_keys_not_mem_drop hnd n p hp
  · intro e he hke
    rw [Keys, hafter] at hke
    rw [← List.take_append_drop n L] at he
    rcases List.mem_append.mp he with h | h
    · exact h
    · exact absurd (List.mem_map_of_mem Prod.fst h) hke

theorem keys_nodup_inj {l : List (K × V)} (hnd : (l.map Prod.fst).Nodup)
    {x y : K × V} (hx : x ∈ l) (hy : y ∈ l) (h : x.1 = y.1) : x = y :=
  List.inj_on_of_nodup_map hnd hx hy h

instance {w : K → V → Int} {c : LRUWithAccounting K V} : Decidable (WF w c) := by
  unfold WF
  infer_instance

/-- A constant accounting function, used to instantiate theorems at
concrete caches. -/
def wconst (n : Int) : Nat → Nat → Int := fun _ _ => n

theorem Remove_eq_of_some {w : K → V → Int} {d : LRUWithAccounting K V} {k : K}
    {e : K × V} (h : d.evictList.find? (fun x => x.1 == k) = some e) :
    Remove w d k =
      ({ limit := d.limit, size := d.size - w e.1 e.2,
         evictList := d.evictList.eraseP (fun x => x.1 == k) }, true, [e]) := by
  unfold Remove
  rw [h]

theorem Remove_eq_of_none {w : K → V → Int} {d : LRUWithAccounting K V} {k : K}
    (h : d.evictList.find? (fun x => x.1 == k) = none) :
    Remove w d k = (d, false, []) := by
  unfold Remove
  rw [h]

theorem find?_eq_none_of_not_mem_keys {l : List (K × V)} {k : K}
    (h : k ∉ l.map Prod.fst) : l.find? (fun x => x.1 == k) = none := by
  rw [List.find?_eq_none]
  intro x hx hbeq
  apply h
  have hxk : x.1 = k := by simpa using hbeq
  rw [← hxk]
  exact List.mem_map_of_mem Prod.fst hx

theorem evictLogOK_remove_hit {l : List (K × V)} (hnd : (l.map Prod.fst).Nodup)
    {k : K} {e : K × V} (hfind : l.find? (fun x => x.1 == k) = some e)
    {after : LRUWithAccounting K V}
    (hafter : after.evictList = l.eraseP (fun x => x.1 == k)) :
    EvictLogOK l after [e] := by
  have hk : e.1 = k := find?_key_eq hfind
  refine ⟨List.nodup_singleton _, ?_, ?_⟩
  · intro p hp
    rw [List.mem_singleton] at hp
    subst hp
    refine ⟨List.mem_of_find?_eq_some hfind, ?_⟩
    rw [Keys, hafter, hk]
    exact not_mem_keys_eraseP hnd k
  · intro x hx hkx
    rw [List.mem_singleton]
    by_cases hxk : x.1 = k
    · exact keys_nodup_inj hnd hx (List.mem_of_find?_eq_some hfind)
        (by rw [hxk, hk])
    · exfalso
      apply hkx
      rw [Keys, hafter]
      exact List.mem_map_of_mem Prod.fst (mem_eraseP_of_key_ne hx hxk)

/-! Claims. -/

/-- Claim C1, counterexample: the invariant `total_weight <= limit` with
the single-oversized-entry exception does not survive `Resize`.  On the
well-formed cache with limit 100 and three entries of weight 5 each
(total 15, within the limit), `Resize` to 2 removes one entry by count
and leaves two entries of total weight 10 over the new limit 2 — neither
`total_weight <= limit` nor the degraded one-entry state. -/
theorem claimC1_counterexample :
    WF (wconst 5) (⟨100, 15, [(0, 0), (1, 1), (2, 2)]⟩ : LRUWithAccounting Nat Nat) ∧
    (⟨100, 15, [(0, 0), (1, 1), (2, 2)]⟩ : LRUWithAccounting Nat Nat).size ≤
      (⟨100, 15, [(0, 0), (1, 1), (2, 2)]⟩ : LRUWithAccounting Nat Nat).limit ∧
    ¬ ((Resize (wconst 5) ⟨100, 15, [(0, 0), (1, 1), (2, 2)]⟩ 2).1.size ≤
        (Resize (wconst 5) ⟨100, 15, [(0, 0), (1, 1), (2, 2)]⟩ 2).1.limit) ∧
    (Resize (wconst 5) ⟨100, 15, [(0, 0), (1, 1), (2, 2)]⟩ 2).1.evictList.length = 2 := by
  decide

/-- Claim C1 (amended): after Add, Remove, RemoveOldest and Purge — but
not Resize — `total_weight <= limit` is a post-condition, on a well-formed
cache with nonnegative weights and nonnegative limit that satisfied the
invariant before the call; Add needs no exception for an oversized entry,
since its loop evicts such an entry rather than retaining it. -/
theorem claimC1 {w : K → V → Int} (c : LRUWithAccounting K V) (k : K) (v : V)
    (hw : ∀ a b, 0 ≤ w a b) (hwf : WF w c) (hlim : 0 ≤ c.limit) :
    (Add w c k v).isSome ∧
    (∀ out, Add w c k v = some out → out.1.size ≤ out.1.limit) ∧
    (c.size ≤ c.limit → (Remove w c k).1.size ≤ (Remove w c k).1.limit) ∧
    (c.size ≤ c.limit →
      (RemoveOldest w c).1.size ≤ (RemoveOldest w c).1.limit) ∧
    (Purge c).1.size ≤ (Purge c).1.limit := by
  refine ⟨Add_total hwf hlim, ?_, ?_, ?_, ?_⟩
  · intro out hout
    have hout' : evictIfNeeded w (addPlace w c k v) = some out := hout
    obtain ⟨n, hn, hL, hlist, hlog, hsz, hle, hflag, hiter⟩ :=
      evictIfNeeded_spec hout'
    rw [addPlace_limit] at hL hle
    rw [hL]
    exact hle
  · intro hpre
    unfold Remove
    cases hfind : c.evictList.find? (fun x => x.1 == k) with
    | some e =>
      show c.size - w e.1 e.2 ≤ c.limit
      have := hw e.1 e.2
      omega
    | none =>
      exact hpre
  · intro hpre
    unfold RemoveOldest
    cases hl : c.evictList with
    | nil => exact hpre
    | cons e rest =>
      show c.size - w e.1 e.2 ≤ c.limit
      have := hw e.1 e.2
      omega
  · exact hlim

/-- Witness for claimC1 at a concrete cache: limit 10, two entries of
weight 2, adding a third. -/
theorem claimC1_witness :
    ((∀ a b, 0 ≤ wconst 2 a b) ∧
      WF (wconst 2) (⟨10, 4, [(1, 1), (2, 2)]⟩ : LRUWithAccounting Nat Nat) ∧
      0 ≤ (⟨10, 4, [(1, 1), (2, 2)]⟩ : LRUWithAccounting Nat Nat).limit) ∧
    ((Add (wconst 2) ⟨10, 4, [(1, 1), (2, 2)]⟩ 3 3).isSome ∧
      (∀ out, Add (wconst 2) ⟨10, 4, [(1, 1), (2, 2)]⟩ 3 3 = some out →
        out.1.size ≤ out.1.limit) ∧
      ((⟨10, 4, [(1, 1), (2, 2)]⟩ : LRUWithAccounting Nat Nat).size ≤
          (⟨10, 4, [(1, 1), (2, 2)]⟩ : LRUWithAccounting Nat Nat).limit →
        (Remove (wconst 2) ⟨10, 4, [(1, 1), (2, 2)]⟩ 3).1.size ≤
          (Remove (wconst 2) ⟨10, 4, [(1, 1), (2, 2)]⟩ 3).1.limit) ∧
      ((⟨10, 4, [(1, 1), (2, 2)]⟩ : LRUWithAccounting Nat Nat).size ≤
          (⟨10, 4, [(1, 1), (2, 2)]⟩ : LRUWithAccounting Nat Nat).limit →
        (RemoveOldest (wconst 2) ⟨10, 4, [(1, 1), (2, 2)]⟩).1.size ≤
          (RemoveOldest (wconst 2) ⟨10, 4, [(1, 1), (2, 2)]⟩).1.limit) ∧
      (Purge (⟨10, 4, [(1, 1), (2, 2)]⟩ : LRUWithAccounting Nat Nat)).1.size ≤
        (Purge (⟨10, 4, [(1, 1), (2, 2)]⟩ : LRUWithAccounting Nat Nat)).1.limit) :=
  ⟨⟨fun a b => (by decide : (0 : Int) ≤ 2), by decide, by decide⟩,
    claimC1 ⟨10, 4, [(1, 1), (2, 2)]⟩ 3 3 (fun a b => (by decide : (0 : Int) ≤ 2))
      (by decide) (by decide)⟩

/-- Claim C2: for every Add call on a well-formed cache with nonnegative
limit, after the entry is placed or updated (state `addPlace`), the
eviction loop removes the least recently used entries from the back —
logging each removed pair to onEvict in order and subtracting its weight
from the size — precisely while `total_weight > limit` still held, and
stops as soon as `total_weight <= limit`. -/
theorem claimC2 {w : K → V → Int} (c : LRUWithAccounting K V) (k : K) (v : V)
    (hwf : WF w c) (hlim : 0 ≤ c.limit) :
    ∃ out n,
      Add w c k v = some out ∧
      n ≤ (addPlace w c k v).evictList.length ∧
      out.1.evictList = (addPlace w c k v).evictList.drop n ∧
      out.2.2 = (addPlace w c k v).evictList.take n ∧
      out.1.size = (addPlace w c k v).size -
        sumWeights w ((addPlace w c k v).evictList.take n) ∧
      out.1.size ≤ c.limit ∧
      ∀ j, j < n →
        c.limit < (addPlace w c k v).size -
          sumWeights w ((addPlace w c k v).evictList.take j) := by
  have hs : (Add w c k v).isSome := Add_total hwf hlim
  cases hout : Add w c k v with
  | none => rw [hout] at hs; simp at hs
  | some out =>
    have hout' : evictIfNeeded w (addPlace w c k v) = some out := hout
    obtain ⟨n, hn, hL, hlist, hlog, hsz, hle, hflag, hiter⟩ :=
      evictIfNeeded_spec hout'
    rw [addPlace_limit] at hle hiter
    exact ⟨out, n, rfl, hn, hlist, hlog, hsz, hle, hiter⟩

/-- Witness for claimC2: limit 4, entries (1,1) and (2,2) of weight 2,
adding (3,3) evicts exactly the back entry (1,1). -/
theorem claimC2_witness :
    (WF (wconst 2) (⟨4, 4, [(1, 1), (2, 2)]⟩ : LRUWithAccounting Nat Nat) ∧
      0 ≤ (⟨4, 4, [(1, 1), (2, 2)]⟩ : LRUWithAccounting Nat Nat).limit) ∧
    (∃ out n,
      Add (wconst 2) ⟨4, 4, [(1, 1), (2, 2)]⟩ 3 3 = some out ∧
      n ≤ (addPlace (wconst 2) ⟨4, 4, [(1, 1), (2, 2)]⟩ 3 3).evictList.length ∧
      out.1.evictList =
        (addPlace (wconst 2) ⟨4, 4, [(1, 1), (2, 2)]⟩ 3 3).evictList.drop n ∧
      out.2.2 =
        (addPlace (wconst 2) ⟨4, 4, [(1, 1), (2, 2)]⟩ 3 3).evictList.take n ∧
      out.1.size = (addPlace (wconst 2) ⟨4, 4, [(1, 1), (2, 2)]⟩ 3 3).size -
        sumWeights (wconst 2)
          ((addPlace (wconst 2) ⟨4, 4, [(1, 1), (2, 2)]⟩ 3 3).evictList.take n) ∧
      out.1.size ≤ (⟨4, 4, [(1, 1), (2, 2)]⟩ : LRUWithAccounting Nat Nat).limit ∧
      ∀ j, j < n →
        (⟨4, 4, [(1, 1), (2, 2)]⟩ : LRUWithAccounting Nat Nat).limit <
          (addPlace (wconst 2) ⟨4, 4, [(1, 1), (2, 2)]⟩ 3 3).size -
            sumWeights (wconst 2)
              ((addPlace (wconst 2) ⟨4, 4, [(1, 1), (2, 2)]⟩ 3 3).evictList.take j)) :=
  ⟨⟨by decide, by decide⟩,
    claimC2 ⟨4, 4, [(1, 1), (2, 2)]⟩ 3 3 (by decide) (by decide)⟩


/-- Claim C3: Add returns true if and only if its eviction loop removed
at least one entry during the call, equivalently if and only if the size
exceeded the limit immediately after the insert or update step. -/
theorem claimC3 {w : K → V → Int} (c : LRUWithAccounting K V) (k : K) (v : V)
    (hwf : WF w c) (hlim : 0 ≤ c.limit) :
    ∃ out,
      Add w c k v = some out ∧
      (out.2.1 = true ↔ out.2.2 ≠ []) ∧
      (out.2.1 = true ↔ c.limit < (addPlace w c k v).size) := by
  have hs : (Add w c k v).isSome := Add_total hwf hlim
  cases hout : Add w c k v with
  | none => rw [hout] at hs; simp at hs
  | some out =>
    have hout2 : evictIfNeeded w (addPlace w c k v) = some out := hout
    obtain ⟨n, hn, hL, hlist, hlog, hsz, hle, hflag, hiter⟩ :=
      evictIfNeeded_spec hout2
    rw [addPlace_limit] at hle hflag hiter
    refine ⟨out, rfl, ?_, hflag⟩
    rw [hflag, hlog]
    constructor
    · intro hgt htake
      rcases List.take_eq_nil_iff.mp htake with h0 | hnil
      · rw [h0, List.take_zero, sumWeights_nil] at hsz
        omega
      · exact addPlace_ne_nil hnil
    · intro hne
      have hn0 : n ≠ 0 := by
        intro h0
        rw [h0, List.take_zero] at hne
        exact hne rfl
      have hi := hiter 0 (Nat.pos_of_ne_zero hn0)
      rw [List.take_zero, sumWeights_nil] at hi
      omega

/-- Witness for claimC3: adding a third weight-2 entry to a full cache of
limit 4 evicts and returns true. -/
theorem claimC3_witness :
    (WF (wconst 2) (⟨4, 4, [(1, 1), (2, 2)]⟩ : LRUWithAccounting Nat Nat) ∧
      0 ≤ (⟨4, 4, [(1, 1), (2, 2)]⟩ : LRUWithAccounting Nat Nat).limit) ∧
    (∃ out,
      Add (wconst 2) ⟨4, 4, [(1, 1), (2, 2)]⟩ 5 5 = some out ∧
      (out.2.1 = true ↔ out.2.2 ≠ []) ∧
      (out.2.1 = true ↔
        (⟨4, 4, [(1, 1), (2, 2)]⟩ : LRUWithAccounting Nat Nat).limit <
          (addPlace (wconst 2) ⟨4, 4, [(1, 1), (2, 2)]⟩ 5 5).size)) :=
  ⟨⟨by decide, by decide⟩,
    claimC3 ⟨4, 4, [(1, 1), (2, 2)]⟩ 5 5 (by decide) (by decide)⟩

/-- Claim C4, counterexample: on a cache holding one entry, Resize with
newLimit = -1 returns 2 although only one entry is removed, and the final
entry count 0 is not at most the new limit; so the claim that the return
value is exactly the number of entries removed fails for negative limits. -/
theorem claimC4_counterexample :
    (Resize (wconst 1) (⟨5, 1, [(0, 0)]⟩ : LRUWithAccounting Nat Nat) (-1)).2.1 = 2 ∧
    (Resize (wconst 1) (⟨5, 1, [(0, 0)]⟩ : LRUWithAccounting Nat Nat) (-1)).2.2.length = 1 ∧
    ¬ (((Resize (wconst 1) (⟨5, 1, [(0, 0)]⟩ : LRUWithAccounting Nat Nat)
          (-1)).1.evictList.length : Int) ≤ -1) := by
  decide

/-- Claim C4 (amended): Resize sets the limit to newLimit and evicts by
entry count; for nonnegative newLimit it removes exactly
max(Len - newLimit, 0) oldest entries, returns that number, and leaves
at most newLimit entries. -/
theorem claimC4 {w : K → V → Int} (c : LRUWithAccounting K V) (newLimit : Int)
    (hlim : 0 ≤ newLimit) :
    (Resize w c newLimit).1.limit = newLimit ∧
    (Resize w c newLimit).2.1 = max ((c.evictList.length : Int) - newLimit) 0 ∧
    ((Resize w c newLimit).2.2.length : Int) = (Resize w c newLimit).2.1 ∧
    (Resize w c newLimit).1.evictList =
      c.evictList.drop (((c.evictList.length : Int) - newLimit).toNat) ∧
    ((Resize w c newLimit).1.evictList.length : Int) ≤ newLimit := by
  obtain ⟨r1, r2, r3, r4, r5⟩ := Resize_spec w c newLimit
  refine ⟨r1, r2, ?_, r3, ?_⟩
  · rw [r4, r2, List.length_take]
    omega
  · rw [r3, List.length_drop]
    omega

/-- Witness for claimC4: shrinking a three-entry cache to an entry count
of 1 removes two oldest entries. -/
theorem claimC4_witness :
    (0 : Int) ≤ 1 ∧
    (Resize (wconst 1) (⟨9, 3, [(0, 0), (1, 1), (2, 2)]⟩ : LRUWithAccounting Nat Nat) 1).1.limit = 1 ∧
    (Resize (wconst 1) (⟨9, 3, [(0, 0), (1, 1), (2, 2)]⟩ : LRUWithAccounting Nat Nat) 1).2.1 =
      max (((⟨9, 3, [(0, 0), (1, 1), (2, 2)]⟩ : LRUWithAccounting Nat Nat).evictList.length : Int) - 1) 0 ∧
    ((Resize (wconst 1) (⟨9, 3, [(0, 0), (1, 1), (2, 2)]⟩ : LRUWithAccounting Nat Nat) 1).2.2.length : Int) =
      (Resize (wconst 1) (⟨9, 3, [(0, 0), (1, 1), (2, 2)]⟩ : LRUWithAccounting Nat Nat) 1).2.1 ∧
    (Resize (wconst 1) (⟨9, 3, [(0, 0), (1, 1), (2, 2)]⟩ : LRUWithAccounting Nat Nat) 1).1.evictList =
      (⟨9, 3, [(0, 0), (1, 1), (2, 2)]⟩ : LRUWithAccounting Nat Nat).evictList.drop
        ((((⟨9, 3, [(0, 0), (1, 1), (2, 2)]⟩ : LRUWithAccounting Nat Nat).evictList.length : Int) - 1).toNat) ∧
    (((Resize (wconst 1) (⟨9, 3, [(0, 0), (1, 1), (2, 2)]⟩ : LRUWithAccounting Nat Nat) 1).1.evictList.length : Int) ≤ 1) :=
  ⟨by decide, claimC4 ⟨9, 3, [(0, 0), (1, 1), (2, 2)]⟩ 1 (by decide)⟩

/-- A value-dependent accounting function, used to instantiate theorems
where old and new weights must differ. -/
def wval : Nat → Nat → Int := fun _ v => (v : Int)

/-- Claim C5: adding over an existing key replaces the value in place,
changes the size by exactly the new weight minus the old weight before
the eviction loop runs, keeps the entry count unchanged, and promotes
the entry to the most recently used position. -/
theorem claimC5 {w : K → V → Int} (c : LRUWithAccounting K V) (k : K) (v : V)
    (e : K × V) (hfind : c.evictList.find? (fun x => x.1 == k) = some e) :
    (addPlace w c k v).size = c.size + (w k v - w k e.2) ∧
    Len (addPlace w c k v) = Len c ∧
    (addPlace w c k v).evictList.getLast? = some (k, v) := by
  have hk : e.1 = k := find?_key_eq hfind
  rw [addPlace_hit hfind]
  refine ⟨?_, ?_, ?_⟩
  · show c.size - w e.1 e.2 + w e.1 v = c.size + (w k v - w k e.2)
    rw [hk]
    ring
  · show ((c.evictList.eraseP (fun x => x.1 == k)) ++ [(e.1, v)]).length =
      c.evictList.length
    rw [List.length_append]
    have := length_eraseP_find? hfind
    simp only [List.length_cons, List.length_nil]
    omega
  · show ((c.evictList.eraseP (fun x => x.1 == k)) ++ [(e.1, v)]).getLast? =
      some (k, v)
    rw [List.getLast?_concat, hk]

/-- Witness for claimC5: updating key 1 from value 1 to value 7 under the
value-weighing function raises the size by 6 and keeps the length. -/
theorem claimC5_witness :
    (⟨10, 3, [(1, 1), (2, 2)]⟩ : LRUWithAccounting Nat Nat).evictList.find?
      (fun x => x.1 == 1) = some (1, 1) ∧
    ((addPlace wval ⟨10, 3, [(1, 1), (2, 2)]⟩ 1 7).size =
      (⟨10, 3, [(1, 1), (2, 2)]⟩ : LRUWithAccounting Nat Nat).size +
        (wval 1 7 - wval 1 (1, 1).2) ∧
    Len (addPlace wval ⟨10, 3, [(1, 1), (2, 2)]⟩ 1 7) =
      Len (⟨10, 3, [(1, 1), (2, 2)]⟩ : LRUWithAccounting Nat Nat) ∧
    (addPlace wval ⟨10, 3, [(1, 1), (2, 2)]⟩ 1 7).evictList.getLast? =
      some (1, 7)) :=
  ⟨by decide, claimC5 ⟨10, 3, [(1, 1), (2, 2)]⟩ 1 7 (1, 1) (by decide)⟩


/-- Claim C6: along every removal path — Remove, RemoveOldest, Purge,
Resize, and the eviction loop inside Add (taking the entries as they
stand after the placement step) — the onEvict log names each departed
entry exactly once with the (key, value) pair it held, and never names a
key that is still present afterwards. -/
theorem claimC6 {w : K → V → Int} (c : LRUWithAccounting K V)
    (hwf : WF w c) :
    (∀ k, EvictLogOK c.evictList (Remove w c k).1 (Remove w c k).2.2) ∧
    EvictLogOK c.evictList (RemoveOldest w c).1 (RemoveOldest w c).2.2 ∧
    EvictLogOK c.evictList (Purge c).1 (Purge c).2 ∧
    (∀ newLimit, EvictLogOK c.evictList (Resize w c newLimit).1
      (Resize w c newLimit).2.2) ∧
    (∀ k v out, Add w c k v = some out →
      EvictLogOK (addPlace w c k v).evictList out.1 out.2.2) := by
  obtain ⟨hnd, hsum⟩ := hwf
  refine ⟨?_, ?_, ?_, ?_, ?_⟩
  · intro k
    cases hfind : c.evictList.find? (fun x => x.1 == k) with
    | some e =>
      rw [Remove_eq_of_some hfind]
      exact evictLogOK_remove_hit hnd hfind rfl
    | none =>
      rw [Remove_eq_of_none hfind]
      exact evictLogOK_take_drop hnd 0 rfl rfl
  · cases hl : c.evictList with
    | nil =>
      have h1 : RemoveOldest w c = (c, none, []) := by
        unfold RemoveOldest
        rw [hl]
      rw [h1]
      exact ⟨List.nodup_nil, fun p hp => absurd hp (List.not_mem_nil p),
        fun e he _ => absurd he (List.not_mem_nil e)⟩
    | cons e rest =>
      have h1 : RemoveOldest w c =
          ({ limit := c.limit, size := c.size - w e.1 e.2, evictList := rest },
            some e, [e]) := by
        unfold RemoveOldest
        rw [hl]
      rw [h1]
      rw [hl] at hnd
      exact evictLogOK_take_drop hnd 1 rfl rfl
  · exact evictLogOK_take_drop hnd c.evictList.length
      (by rw [List.drop_length]; rfl) (by rw [List.take_length]; rfl)
  · intro newLimit
    obtain ⟨r1, r2, r3, r4, r5⟩ := Resize_spec w c newLimit
    exact evictLogOK_take_drop hnd _ r3 r4
  · intro k v out hout
    have hout2 : evictIfNeeded w (addPlace w c k v) = some out := hout
    obtain ⟨n, hn, hL, hlist, hlog, hsz, hle, hflag, hiter⟩ :=
      evictIfNeeded_spec hout2
    exact evictLogOK_take_drop (addPlace_wf ⟨hnd, hsum⟩).1 n hlist hlog

/-- Witness for claimC6 at a concrete two-entry cache. -/
theorem claimC6_witness :
    WF (wconst 2) (⟨4, 4, [(1, 1), (2, 2)]⟩ : LRUWithAccounting Nat Nat) ∧
    ((∀ k, EvictLogOK (⟨4, 4, [(1, 1), (2, 2)]⟩ : LRUWithAccounting Nat Nat).evictList
        (Remove (wconst 2) ⟨4, 4, [(1, 1), (2, 2)]⟩ k).1
        (Remove (wconst 2) ⟨4, 4, [(1, 1), (2, 2)]⟩ k).2.2) ∧
      EvictLogOK (⟨4, 4, [(1, 1), (2, 2)]⟩ : LRUWithAccounting Nat Nat).evictList
        (RemoveOldest (wconst 2) ⟨4, 4, [(1, 1), (2, 2)]⟩).1
        (RemoveOldest (wconst 2) ⟨4, 4, [(1, 1), (2, 2)]⟩).2.2 ∧
      EvictLogOK (⟨4, 4, [(1, 1), (2, 2)]⟩ : LRUWithAccounting Nat Nat).evictList
        (Purge (⟨4, 4, [(1, 1), (2, 2)]⟩ : LRUWithAccounting Nat Nat)).1
        (Purge (⟨4, 4, [(1, 1), (2, 2)]⟩ : LRUWithAccounting Nat Nat)).2 ∧
      (∀ newLimit, EvictLogOK (⟨4, 4, [(1, 1), (2, 2)]⟩ : LRUWithAccounting Nat Nat).evictList
        (Resize (wconst 2) ⟨4, 4, [(1, 1), (2, 2)]⟩ newLimit).1
        (Resize (wconst 2) ⟨4, 4, [(1, 1), (2, 2)]⟩ newLimit).2.2) ∧
      (∀ k v out, Add (wconst 2) ⟨4, 4, [(1, 1), (2, 2)]⟩ k v = some out →
        EvictLogOK (addPlace (wconst 2) ⟨4, 4, [(1, 1), (2, 2)]⟩ k v).evictList
          out.1 out.2.2)) :=
  ⟨by decide, claimC6 ⟨4, 4, [(1, 1), (2, 2)]⟩ (by decide)⟩

/-- Claim C7: Purge fires onEvict for every present entry, empties the
recency order and the index, and resets the size, after which Len and
AccountingSize are zero and Get, Peek and Contains find no key. -/
theorem claimC7 (c : LRUWithAccounting K V) :
    (∀ e, e ∈ c.evictList → e ∈ (Purge c).2) ∧
    (Purge c).1.evictList = [] ∧
    (Purge c).1.size = 0 ∧
    Len (Purge c).1 = 0 ∧
    AccountingSize (Purge c).1 = 0 ∧
    ∀ k, (Get (Purge c).1 k).2 = none ∧ (Peek (Purge c).1 k).2 = none ∧
      (Contains (Purge c).1 k).2 = false :=
  ⟨fun e he => he, rfl, rfl, rfl, rfl, fun k => ⟨rfl, rfl, rfl⟩⟩

/-- Witness for claimC7 at a concrete two-entry cache. -/
theorem claimC7_witness :
    (∀ e, e ∈ (⟨4, 4, [(1, 1), (2, 2)]⟩ : LRUWithAccounting Nat Nat).evictList →
      e ∈ (Purge (⟨4, 4, [(1, 1), (2, 2)]⟩ : LRUWithAccounting Nat Nat)).2) ∧
    (Purge (⟨4, 4, [(1, 1), (2, 2)]⟩ : LRUWithAccounting Nat Nat)).1.evictList = [] ∧
    (Purge (⟨4, 4, [(1, 1), (2, 2)]⟩ : LRUWithAccounting Nat Nat)).1.size = 0 ∧
    Len (Purge (⟨4, 4, [(1, 1), (2, 2)]⟩ : LRUWithAccounting Nat Nat)).1 = 0 ∧
    AccountingSize (Purge (⟨4, 4, [(1, 1), (2, 2)]⟩ : LRUWithAccounting Nat Nat)).1 = 0 ∧
    ∀ k, (Get (Purge (⟨4, 4, [(1, 1), (2, 2)]⟩ : LRUWithAccounting Nat Nat)).1 k).2 = none ∧
      (Peek (Purge (⟨4, 4, [(1, 1), (2, 2)]⟩ : LRUWithAccounting Nat Nat)).1 k).2 = none ∧
      (Contains (Purge (⟨4, 4, [(1, 1), (2, 2)]⟩ : LRUWithAccounting Nat Nat)).1 k).2 = false :=
  claimC7 ⟨4, 4, [(1, 1), (2, 2)]⟩


/-- Claim C8: removing a present key deletes it from the cache, subtracts
its weight from the size, fires onEvict once with its pair, and returns
true; removing an absent key returns false and leaves the cache entirely
unchanged, so a second Remove of the same key is a safe no-op returning
false. -/
theorem claimC8 {w : K → V → Int} (c : LRUWithAccounting K V) (k : K)
    (hwf : WF w c) :
    (∀ e, c.evictList.find? (fun x => x.1 == k) = some e →
      (Remove w c k).2.1 = true ∧
      (Remove w c k).2.2 = [e] ∧
      (Remove w c k).1.size = c.size - w e.1 e.2 ∧
      (Remove w c k).1.limit = c.limit ∧
      k ∉ Keys (Remove w c k).1 ∧
      Len (Remove w c k).1 + 1 = Len c ∧
      (Remove w (Remove w c k).1 k).2.1 = false ∧
      (Remove w (Remove w c k).1 k).1 = (Remove w c k).1) ∧
    (c.evictList.find? (fun x => x.1 == k) = none →
      (Remove w c k).2.1 = false ∧
      (Remove w c k).1 = c ∧
      (Remove w c k).2.2 = []) := by
  constructor
  · intro e hfind
    rw [Remove_eq_of_some hfind]
    have hkeys : k ∉ (c.evictList.eraseP (fun x => x.1 == k)).map Prod.fst :=
      not_mem_keys_eraseP hwf.1 k
    have hfind2 : (c.evictList.eraseP (fun x => x.1 == k)).find?
        (fun x => x.1 == k) = none :=
      find?_eq_none_of_not_mem_keys hkeys
    refine ⟨rfl, rfl, rfl, rfl, hkeys, ?_, ?_, ?_⟩
    · exact length_eraseP_find? hfind
    · rw [Remove_eq_of_none hfind2]
    · rw [Remove_eq_of_none hfind2]
  · intro hfind
    rw [Remove_eq_of_none hfind]
    exact ⟨rfl, rfl, rfl⟩

/-- Witness for claimC8: removing key 1 from a two-entry cache. -/
theorem claimC8_witness :
    WF (wconst 2) (⟨10, 4, [(1, 1), (2, 2)]⟩ : LRUWithAccounting Nat Nat) ∧
    ((∀ e, (⟨10, 4, [(1, 1), (2, 2)]⟩ : LRUWithAccounting Nat Nat).evictList.find?
        (fun x => x.1 == 1) = some e →
      (Remove (wconst 2) ⟨10, 4, [(1, 1), (2, 2)]⟩ 1).2.1 = true ∧
      (Remove (wconst 2) ⟨10, 4, [(1, 1), (2, 2)]⟩ 1).2.2 = [e] ∧
      (Remove (wconst 2) ⟨10, 4, [(1, 1), (2, 2)]⟩ 1).1.size =
        (⟨10, 4, [(1, 1), (2, 2)]⟩ : LRUWithAccounting Nat Nat).size - wconst 2 e.1 e.2 ∧
      (Remove (wconst 2) ⟨10, 4, [(1, 1), (2, 2)]⟩ 1).1.limit =
        (⟨10, 4, [(1, 1), (2, 2)]⟩ : LRUWithAccounting Nat Nat).limit ∧
      1 ∉ Keys (Remove (wconst 2) ⟨10, 4, [(1, 1), (2, 2)]⟩ 1).1 ∧
      Len (Remove (wconst 2) ⟨10, 4, [(1, 1), (2, 2)]⟩ 1).1 + 1 =
        Len (⟨10, 4, [(1, 1), (2, 2)]⟩ : LRUWithAccounting Nat Nat) ∧
      (Remove (wconst 2) (Remove (wconst 2) ⟨10, 4, [(1, 1), (2, 2)]⟩ 1).1 1).2.1 = false ∧
      (Remove (wconst 2) (Remove (wconst 2) ⟨10, 4, [(1, 1), (2, 2)]⟩ 1).1 1).1 =
        (Remove (wconst 2) ⟨10, 4, [(1, 1), (2, 2)]⟩ 1).1) ∧
    ((⟨10, 4, [(1, 1), (2, 2)]⟩ : LRUWithAccounting Nat Nat).evictList.find?
        (fun x => x.1 == 1) = none →
      (Remove (wconst 2) ⟨10, 4, [(1, 1), (2, 2)]⟩ 1).2.1 = false ∧
      (Remove (wconst 2) ⟨10, 4, [(1, 1), (2, 2)]⟩ 1).1 =
        (⟨10, 4, [(1, 1), (2, 2)]⟩ : LRUWithAccounting Nat Nat) ∧
      (Remove (wconst 2) ⟨10, 4, [(1, 1), (2, 2)]⟩ 1).2.2 = [])) :=
  ⟨by decide, claimC8 ⟨10, 4, [(1, 1), (2, 2)]⟩ 1 (by decide)⟩

/-- Claim C9: Get on a present key moves that entry to the most recently
used end, which the Keys listing reflects; Get on an absent key, and Peek
and Contains on any key, leave the entries, the order, the size and the
limit unchanged. -/
theorem claimC9 (c : LRUWithAccounting K V) (k : K) :
    (∀ e, c.evictList.find? (fun x => x.1 == k) = some e →
      (Get c k).2 = some e.2 ∧
      Keys (Get c k).1 = (Keys c).eraseP (fun x => x == k) ++ [k] ∧
      (Get c k).1.size = c.size ∧
      (Get c k).1.limit = c.limit ∧
      Len (Get c k).1 = Len c) ∧
    (c.evictList.find? (fun x => x.1 == k) = none → (Get c k).1 = c) ∧
    (Peek c k).1 = c ∧
    (Contains c k).1 = c := by
  refine ⟨?_, ?_, rfl, rfl⟩
  · intro e hfind
    have hk : e.1 = k := find?_key_eq hfind
    have hGet : Get c k =
        ({ c with evictList := c.evictList.eraseP (fun x => x.1 == k) ++ [e] },
          some e.2) := by
      unfold Get
      rw [hfind]
    rw [hGet]
    refine ⟨rfl, ?_, rfl, rfl, ?_⟩
    · show ((c.evictList.eraseP (fun x => x.1 == k)) ++ [e]).map Prod.fst =
        (c.evictList.map Prod.fst).eraseP (fun x => x == k) ++ [k]
      rw [List.map_append, List.eraseP_map]
      rw [show (e :: []).map Prod.fst = [e.1] from rfl, hk]
      rfl
    · show ((c.evictList.eraseP (fun x => x.1 == k)) ++ [e]).length =
        c.evictList.length
      rw [List.length_append]
      have := length_eraseP_find? hfind
      simp only [List.length_cons, List.length_nil]
      omega
  · intro hfind
    unfold Get
    rw [hfind]

/-- Witness for claimC9: Get on key 1 of a two-entry cache promotes it
past key 2. -/
theorem claimC9_witness :
    (∀ e, (⟨10, 4, [(1, 1), (2, 2)]⟩ : LRUWithAccounting Nat Nat).evictList.find?
        (fun x => x.1 == 1) = some e →
      (Get (⟨10, 4, [(1, 1), (2, 2)]⟩ : LRUWithAccounting Nat Nat) 1).2 = some e.2 ∧
      Keys (Get (⟨10, 4, [(1, 1), (2, 2)]⟩ : LRUWithAccounting Nat Nat) 1).1 =
        (Keys (⟨10, 4, [(1, 1), (2, 2)]⟩ : LRUWithAccounting Nat Nat)).eraseP
          (fun x => x == 1) ++ [1] ∧
      (Get (⟨10, 4, [(1, 1), (2, 2)]⟩ : LRUWithAccounting Nat Nat) 1).1.size =
        (⟨10, 4, [(1, 1), (2, 2)]⟩ : LRUWithAccounting Nat Nat).size ∧
      (Get (⟨10, 4, [(1, 1), (2, 2)]⟩ : LRUWithAccounting Nat Nat) 1).1.limit =
        (⟨10, 4, [(1, 1), (2, 2)]⟩ : LRUWithAccounting Nat Nat).limit ∧
      Len (Get (⟨10, 4, [(1, 1), (2, 2)]⟩ : LRUWithAccounting Nat Nat) 1).1 =
        Len (⟨10, 4, [(1, 1), (2, 2)]⟩ : LRUWithAccounting Nat Nat)) ∧
    ((⟨10, 4, [(1, 1), (2, 2)]⟩ : LRUWithAccounting Nat Nat).evictList.find?
        (fun x => x.1 == 1) = none →
      (Get (⟨10, 4, [(1, 1), (2, 2)]⟩ : LRUWithAccounting Nat Nat) 1).1 =
        (⟨10, 4, [(1, 1), (2, 2)]⟩ : LRUWithAccounting Nat Nat)) ∧
    (Peek (⟨10, 4, [(1, 1), (2, 2)]⟩ : LRUWithAccounting Nat Nat) 1).1 =
      (⟨10, 4, [(1, 1), (2, 2)]⟩ : LRUWithAccounting Nat Nat) ∧
    (Contains (⟨10, 4, [(1, 1), (2, 2)]⟩ : LRUWithAccounting Nat Nat) 1).1 =
      (⟨10, 4, [(1, 1), (2, 2)]⟩ : LRUWithAccounting Nat Nat) :=
  claimC9 ⟨10, 4, [(1, 1), (2, 2)]⟩ 1

/-- Claim C10: on every well-formed cache state with nonnegative limit the
eviction loop terminates — hence every Add call does — leaving the size
equal to the total weight of the remaining entries and at most the limit;
without the nonnegative-limit precondition, which Resize does not
enforce, the loop never returns once the list is empty while the size
still exceeds the limit. -/
theorem claimC10 {w : K → V → Int} (c : LRUWithAccounting K V)
    (hwf : WF w c) (hlim : 0 ≤ c.limit) :
    (evictIfNeeded w c).isSome ∧
    (∀ k v, (Add w c k v).isSome) ∧
    (∀ out, evictIfNeeded w c = some out →
      out.1.size = sumWeights w out.1.evictList ∧ out.1.size ≤ c.limit) ∧
    (∀ d : LRUWithAccounting K V, d.evictList = [] → d.limit < d.size →
      evictIfNeeded w d = none) := by
  refine ⟨evictIfNeeded_total hwf hlim, fun k v => Add_total hwf hlim, ?_, ?_⟩
  · intro out hout
    obtain ⟨n, hn, hL, hlist, hlog, hsz, hle, hflag, hiter⟩ :=
      evictIfNeeded_spec hout
    refine ⟨?_, hle⟩
    rw [hsz, hlist]
    have hta := sumWeights_take_drop w c.evictList n
    rw [hwf.2]
    omega
  · intro d hdl hds
    unfold evictIfNeeded
    rw [hdl, evictLoop_nil_of_gt hds]
    rfl

/-- Witness for claimC10: a cache over its limit terminates its eviction
loop. -/
theorem claimC10_witness :
    (WF (wconst 3) (⟨4, 6, [(1, 1), (2, 2)]⟩ : LRUWithAccounting Nat Nat) ∧
      0 ≤ (⟨4, 6, [(1, 1), (2, 2)]⟩ : LRUWithAccounting Nat Nat).limit) ∧
    ((evictIfNeeded (wconst 3) ⟨4, 6, [(1, 1), (2, 2)]⟩).isSome ∧
      (∀ k v, (Add (wconst 3) ⟨4, 6, [(1, 1), (2, 2)]⟩ k v).isSome) ∧
      (∀ out, evictIfNeeded (wconst 3) ⟨4, 6, [(1, 1), (2, 2)]⟩ = some out →
        out.1.size = sumWeights (wconst 3) out.1.evictList ∧
          out.1.size ≤ (⟨4, 6, [(1, 1), (2, 2)]⟩ : LRUWithAccounting Nat Nat).limit) ∧
      (∀ d : LRUWithAccounting Nat Nat, d.evictList = [] → d.limit < d.size →
        evictIfNeeded (wconst 3) d = none)) :=
  ⟨⟨by decide, by decide⟩, claimC10 ⟨4, 6, [(1, 1), (2, 2)]⟩ (by decide) (by decide)⟩

end Simplelru
